import Mathlib

/-!
Verification of `src/packages/plugin-racer/makki.py` (`write_tree_with_content`):
a two-pass directory-tree serializer.  The filesystem snapshot is modelled as a
tree; `os.walk` with its default `onerror=None` (which silently swallows listing
errors) is modelled by `walkPruned`; the in-place pruning of `dirnames` is the
filtering of children before descent.  Machine strings are Lean `String`s;
a file's read attempt is `Except String String` (error message or text content).
-/

namespace Makki

/-- A file entry: name together with the outcome of attempting to read it as
text (`.ok content`, or `.error e` when opening/decoding raises). -/
abbrev FileE := String × Except String String

/-- A directory node of the filesystem snapshot: its basename, whether listing
it succeeds (`os.scandir` not raising), its files and its subdirectories.
A non-existent root behaves like an unlistable one: `os.walk` yields nothing. -/
inductive FTree where
  | node (name : String) (listable : Bool) (files : List FileE) (subdirs : List FTree)

def FTree.name : FTree → String
  | .node n _ _ _ => n

def FTree.listable : FTree → Bool
  | .node _ ok _ _ => ok

/-- `[f for f in filenames if f not in ignore_list]` (line 24; line 14 tests the
same predicate inline). -/
def keepFiles (ignore : List String) (files : List FileE) : List FileE :=
  files.filter (fun f => decide (f.1 ∉ ignore))

/-- Helper for `removeAll` with a nonempty pattern `p :: ps`.  The `Nat`
argument is the number of characters still to be consumed silently because they
belong to a matched occurrence of the pattern; when it is `0` and the pattern
is a prefix of the remaining input, the head character is dropped and the
remaining `ps.length` pattern characters are scheduled for silent consumption. -/
def removeAllGo (p : Char) (ps : List Char) : List Char → Nat → List Char
  | [], _ => []
  | _ :: rest, k + 1 => removeAllGo p ps rest k
  | c :: rest, 0 =>
    if (p :: ps).isPrefixOf (c :: rest) then
      removeAllGo p ps rest ps.length
    else
      c :: removeAllGo p ps rest 0

/-- Python `s.replace(pat, '')` on character lists: remove every non-overlapping
occurrence of `pat`, scanning left to right (`str.replace` semantics; with an
empty pattern Python inserts nothing when the replacement is empty). -/
def removeAll (pat l : List Char) : List Char :=
  match pat with
  | [] => l
  | p :: ps => removeAllGo p ps l 0

/-- `pat` occurs as a contiguous substring of `l`. -/
def occursIn (pat : List Char) : List Char → Bool
  | [] => pat.isPrefixOf []
  | c :: rest => pat.isPrefixOf (c :: rest) || occursIn pat rest

/-- Line 10 / line 27: `dirpath.replace(root_dir, '').count(os.sep)`. -/
def level (root dirpath : String) : Nat :=
  (removeAll root.data dirpath.data).count '/'

/-- `os.path.basename`: the part of the path after the last separator. -/
def basename (p : String) : String :=
  String.mk ((p.data.reverse.takeWhile (fun c => c ≠ '/')).reverse)

/-- `' ' * 4 * n`. -/
def indent (n : Nat) : String :=
  String.mk (List.replicate (4 * n) ' ')

/-- The line-boundary characters of Python's `str.splitlines`: LF, CR, VT, FF,
FS, GS, RS, NEL, LS and PS (`'\r\n'` counts as a single boundary and is
handled by `skipLF`). -/
def isLineBreak (c : Char) : Bool :=
  c == '\n' || c == '\r' || c == '\x0b' || c == '\x0c' ||
    c == '\x1c' || c == '\x1d' || c == '\x1e' || c == '\x85' ||
    c == '\u2028' || c == '\u2029'

mutual

/-- Python `content.splitlines()`: split at every `isLineBreak` character, with
`'\r\n'` consumed as one boundary; a trailing boundary produces no extra empty
line, and the empty string has no lines.  (Text-mode reading has already
collapsed `'\r\n'` and lone `'\r'` into `'\n'`, but the splitter is modelled on
the full boundary set.) -/
def splitlinesL : List Char → List (List Char)
  | [] => []
  | c :: rest =>
    if c = '\r' then [] :: skipLF rest
    else if isLineBreak c then [] :: splitlinesL rest
    else
      match splitlinesL rest with
      | [] => [[c]]
      | l :: ls => (c :: l) :: ls

/-- Continue splitting just after a `'\r'`: a directly following `'\n'` belongs
to the same boundary and is consumed silently. -/
def skipLF : List Char → List (List Char)
  | [] => []
  | c :: rest =>
    if c = '\n' then splitlinesL rest
    else if c = '\r' then [] :: skipLF rest
    else if isLineBreak c then [] :: splitlinesL rest
    else
      match splitlinesL rest with
      | [] => [[c]]
      | l :: ls => (c :: l) :: ls

end

/-- `f.read().splitlines()` (line 40) on a `String`. -/
def pySplitlines (s : String) : List String :=
  (splitlinesL s.data).map (fun l => String.mk l)

/-- `os.path.join(a, b)` (POSIX, two arguments, line 33 and `os.walk`'s own
path construction): an absolute second component replaces the first; no extra
separator is inserted when the first component is empty or already ends with
one. -/
def joinPath (a b : String) : String :=
  if b.data.head? = some '/' then b
  else if a.data = [] ∨ a.data.getLast? = some '/' then a ++ b
  else a ++ "/" ++ b

mutual

/-- `os.walk(dirpath)` combined with the caller's in-place pruning
`dirnames[:] = [d for d in dirnames if d not in ignore_list]` (lines 7-9 and
21-23): yield the current directory's `(dirpath, filenames)` frame, then the
frames of each non-ignored subdirectory, depth-first and pre-order.  An
unlistable (or non-existent) directory yields nothing: `os.walk`'s default
`onerror=None` swallows the `scandir` error. -/
def walkPruned (ignore : List String) (dirpath : String) : FTree → List (String × List FileE)
  | .node _ ok files subdirs =>
    if ok then (dirpath, files) :: walkChildren ignore dirpath subdirs else []

/-- Walk each subdirectory in listing order, skipping ignored names; the child
path is built with `os.path.join`, as `os.walk` does. -/
def walkChildren (ignore : List String) (dirpath : String) : List FTree → List (String × List FileE)
  | [] => []
  | c :: rest =>
    (if c.name ∈ ignore then []
     else walkPruned ignore (joinPath dirpath c.name) c) ++ walkChildren ignore dirpath rest

end

mutual

/-- The same pruned walk, recording for each visited directory the chain of
basenames leading from the root to it (the root has the empty chain) instead of
the concatenated path string.  Used to relate the path strings the program
manipulates to true nesting depth. -/
def walkSegs (ignore : List String) : FTree → List (List String × List FileE)
  | .node _ ok files subdirs =>
    if ok then ([], files) :: walkSegsChildren ignore subdirs else []

def walkSegsChildren (ignore : List String) : List FTree → List (List String × List FileE)
  | [] => []
  | c :: rest =>
    (if c.name ∈ ignore then []
     else (walkSegs ignore c).map (fun fr => (c.name :: fr.1, fr.2))) ++
      walkSegsChildren ignore rest

end

/-- Render a chain of basenames as a path suffix with one explicit `"/"` per
step; this matches `joinPath` only when no step takes one of its degenerate
branches (see `renderPath_eq_append`). -/
def renderSegs : List String → String
  | [] => ""
  | s :: rest => "/" ++ s ++ renderSegs rest

/-- The path of a directory reached from `dirpath` along a chain of basenames,
exactly as the walk builds it: one `os.path.join` per step. -/
def renderPath (dirpath : String) (segs : List String) : String :=
  segs.foldl joinPath dirpath

/-- Pass 1, lines 13-15: one line per non-ignored file, at `4 * (level + 1)`
spaces of indent (the filter is an inline `if` inside the loop). -/
def pass1FileLines (ignore : List String) (lvl : Nat) : List FileE → List String
  | [] => []
  | f :: rest =>
    if f.1 ∈ ignore then pass1FileLines ignore lvl rest
    else (indent (lvl + 1) ++ f.1) :: pass1FileLines ignore lvl rest

/-- Pass 1, lines 10-15: the outline lines for one walk frame — the directory
header `indent ++ basename ++ "/"` followed by its non-ignored files. -/
def pass1Frame (root : String) (ignore : List String) (fr : String × List FileE) : List String :=
  (indent (level root fr.1) ++ basename fr.1 ++ "/") ::
    pass1FileLines ignore (level root fr.1) fr.2

/-- Pass 2, lines 32-46: the lines for a single kept file — its name line, then
either its content lines at `4 * (lvl + 2)` indent, or the single fallback line
`file_indent + "  (Could not read file: " + e + ")"` when reading raised. -/
def fileLines (lvl : Nat) (f : FileE) : List String :=
  (indent (lvl + 1) ++ f.1) ::
    (match f.2 with
     | .ok content => (pySplitlines content).map (fun line => indent (lvl + 2) ++ line)
     | .error e => [indent (lvl + 1) ++ "  (Could not read file: " ++ e ++ ")"])

/-- Pass 2, lines 26-46: the content-section lines for one walk frame. -/
def pass2Frame (root : String) (ignore : List String) (fr : String × List FileE) : List String :=
  (indent (level root fr.1) ++ basename fr.1 ++ "/") ::
    (keepFiles ignore fr.2).flatMap (fileLines (level root fr.1))

/-- All lines written by the first `os.walk` loop (lines 7-15). -/
def outlineLines (root : String) (ignore : List String) (t : FTree) : List String :=
  (walkPruned ignore root t).flatMap (pass1Frame root ignore)

/-- All lines written by the second `os.walk` loop (lines 21-46). -/
def contentLines (root : String) (ignore : List String) (t : FTree) : List String :=
  (walkPruned ignore root t).flatMap (pass2Frame root ignore)

/-- The full report as a list of lines: header (line 6), outline, then the
separator `"\nDetailed File Content:\n"` (line 18) — a blank line plus a header
line — and the content section. -/
def reportLines (root : String) (ignore : List String) (t : FTree) : List String :=
  "Directory Tree Outline:" :: outlineLines root ignore t ++
    "" :: "Detailed File Content:" :: contentLines root ignore t

/-- Each `file.write` call ends its payload with `"\n"`; the bytes of the output
file are the lines joined with one `'\n'` after each. -/
def render : List String → String
  | [] => ""
  | l :: rest => l ++ "\n" ++ render rest

/-- `write_tree_with_content(output_file, root_dir, ignore_list)`, lines 3-46.
The filesystem snapshot `t`, whether `open(output_file, 'w')` succeeds
(`outWritable`), and the output file's previous content are explicit state.
`open(..., 'w')` truncates, so on success the final content of the output file
is exactly the rendered report, whatever `prevContent` was; if the output
cannot be opened the exception propagates (`.error`) before anything runs. -/
def write_tree_with_content (output_file root_dir : String) (ignore_list : List String)
    (t : FTree) (outWritable : Bool) (prevContent : String) : Except String String :=
  if outWritable then .ok (render (reportLines root_dir ignore_list t))
  else .error "could not open output file"

/-- A file-opening side effect: which path, and for writing or reading. -/
inductive FsOp where
  | openWrite (p : String)
  | openRead (p : String)
deriving DecidableEq

/-- The file-open effects of one run, in order: `open(output_file, 'w')`
(line 4), then `open(file_path, 'r')` (line 39) for every non-ignored file of
every visited directory in pass 2.  Pass 1 opens nothing. -/
def runEffects (output_file root_dir : String) (ignore_list : List String)
    (t : FTree) : List FsOp :=
  .openWrite output_file ::
    (walkPruned ignore_list root_dir t).flatMap
      (fun fr => (keepFiles ignore_list fr.2).map (fun f => .openRead (joinPath fr.1 f.1)))

/-! ### Helper lemmas -/

deriving instance DecidableEq for Except

theorem removeAllGo_skip (p : Char) (ps xs l : List Char) :
    removeAllGo p ps (xs ++ l) xs.length = removeAllGo p ps l 0 := by
  induction xs with
  | nil => rfl
  | cons x xs ih => rw [List.cons_append, List.length_cons, removeAllGo, ih]

theorem removeAllGo_cancel (p : Char) (ps l : List Char) :
    removeAllGo p ps ((p :: ps) ++ l) 0 = removeAllGo p ps l 0 := by
  have hpre : (p :: ps).isPrefixOf (p :: (ps ++ l)) = true := by
    rw [List.isPrefixOf_iff_prefix]
    exact List.prefix_append _ _
  rw [List.cons_append, removeAllGo, if_pos hpre, ← removeAllGo_skip p ps ps l]

theorem removeAllGo_of_not_occurs (p : Char) (ps : List Char) (l : List Char)
    (h : occursIn (p :: ps) l = false) : removeAllGo p ps l 0 = l := by
  induction l with
  | nil => rw [removeAllGo]
  | cons c rest ih =>
    rw [occursIn, Bool.or_eq_false_iff] at h
    rw [removeAllGo]
    simp only [h.1, Bool.false_eq_true, if_false]
    rw [ih h.2]

theorem removeAll_cancel (pat l : List Char) (h : pat ≠ []) :
    removeAll pat (pat ++ l) = removeAll pat l := by
  cases pat with
  | nil => exact absurd rfl h
  | cons p ps => exact removeAllGo_cancel p ps l

theorem removeAll_of_not_occurs (pat l : List Char) (h : occursIn pat l = false) :
    removeAll pat l = l := by
  cases pat with
  | nil => rfl
  | cons p ps => exact removeAllGo_of_not_occurs p ps l h

theorem count_sep_renderSegs (segs : List String)
    (h : ∀ s ∈ segs, ('/' : Char) ∉ s.data) :
    ((renderSegs segs).data).count '/' = segs.length := by
  induction segs with
  | nil => rfl
  | cons s rest ih =>
    have hs : ('/' : Char) ∉ s.data := h s (List.mem_cons_self s rest)
    have hrest := fun x hx => h x (List.mem_cons_of_mem s hx)
    rw [renderSegs, String.data_append, String.data_append, List.count_append,
      List.count_append, ih hrest, List.count_eq_zero.mpr hs]
    have h1 : List.count '/' "/".data = 1 := by decide
    rw [h1, List.length_cons]
    omega

/-- On a benign input — nonempty root path that does not reoccur inside the
relative path, and separator-free basenames — the `replace`-and-`count` level
computation of lines 10 and 27 gives the true nesting depth. -/
theorem level_eq_depth (root : String) (segs : List String)
    (hroot : root.data ≠ [])
    (hocc : occursIn root.data (renderSegs segs).data = false)
    (hsep : ∀ s ∈ segs, ('/' : Char) ∉ s.data) :
    level root (root ++ renderSegs segs) = segs.length := by
  rw [level, String.data_append, removeAll_cancel _ _ hroot,
    removeAll_of_not_occurs _ _ hocc, count_sep_renderSegs segs hsep]

mutual

/-- The path-string walk is the chain walk with every chain rendered below the
root path by iterated `os.path.join`. -/
theorem walkPruned_eq_segs (ignore : List String) (dirpath : String) (t : FTree) :
    walkPruned ignore dirpath t =
      (walkSegs ignore t).map (fun fr => (renderPath dirpath fr.1, fr.2)) := by
  cases t with
  | node n ok files subdirs =>
    cases ok with
    | false => rw [walkPruned, walkSegs]; rfl
    | true =>
      rw [walkPruned, walkSegs]
      simp only [if_true, List.map_cons]
      rw [walkChildren_eq_segs ignore dirpath subdirs]
      rfl

theorem walkChildren_eq_segs (ignore : List String) (dirpath : String) (l : List FTree) :
    walkChildren ignore dirpath l =
      (walkSegsChildren ignore l).map (fun fr => (renderPath dirpath fr.1, fr.2)) := by
  cases l with
  | nil => rfl
  | cons c rest =>
    rw [walkChildren, walkSegsChildren, List.map_append,
      walkChildren_eq_segs ignore dirpath rest]
    congr 1
    by_cases hc : c.name ∈ ignore
    · simp [hc]
    · simp only [hc, if_false]
      rw [walkPruned_eq_segs ignore (joinPath dirpath c.name) c, List.map_map]
      apply List.map_congr_left
      intro fr _
      simp only [Function.comp_apply]
      rfl

end

theorem mem_of_getLast?_eq (l : List Char) : ∀ (a : Char), l.getLast? = some a → a ∈ l := by
  induction l with
  | nil => intro a h; simp at h
  | cons c rest ih =>
    intro a h
    cases hr : rest with
    | nil =>
      subst hr
      have hca : c = a := by simpa using h
      rw [hca]
      exact List.mem_cons_self a []
    | cons r rs =>
      subst hr
      rw [List.getLast?_cons_cons] at h
      exact List.mem_cons_of_mem c (ih a h)

/-- When the right component does not start with a separator and the left one
is nonempty and does not end with one, `os.path.join` is plain concatenation
with one separator inserted. -/
theorem joinPath_eq_append (a b : String) (ha1 : a.data ≠ [])
    (ha2 : a.data.getLast? ≠ some '/') (hb : ('/' : Char) ∉ b.data) :
    joinPath a b = a ++ "/" ++ b := by
  rw [joinPath]
  have hbh : ¬ b.data.head? = some '/' := fun h => hb (List.mem_of_mem_head? h)
  rw [if_neg hbh, if_neg (not_or.mpr ⟨ha1, ha2⟩)]

/-- Along a chain of nonempty separator-free basenames below a nonempty root
that does not end with a separator, the iterated `os.path.join` path is the
root followed by one `"/" ++ segment` per step. -/
theorem renderPath_eq_append (segs : List String) : ∀ (root : String),
    root.data ≠ [] → root.data.getLast? ≠ some '/' →
    (∀ s ∈ segs, ('/' : Char) ∉ s.data ∧ s.data ≠ []) →
    renderPath root segs = root ++ renderSegs segs := by
  induction segs with
  | nil =>
    intro root _ _ _
    rw [renderSegs]
    exact (String.append_empty root).symm
  | cons s rest ih =>
    intro root h1 h2 h3
    have hs := h3 s (List.mem_cons_self s rest)
    have hrest := fun x hx => h3 x (List.mem_cons_of_mem s hx)
    have hj : joinPath root s = root ++ "/" ++ s := joinPath_eq_append root s h1 h2 hs.1
    have hne : (root ++ "/").data ≠ [] := by
      rw [String.data_append]
      exact List.append_ne_nil_of_left_ne_nil h1 _
    have hnew1 : (root ++ "/" ++ s).data ≠ [] := by
      rw [String.data_append]
      exact List.append_ne_nil_of_left_ne_nil hne _
    have hnew2 : (root ++ "/" ++ s).data.getLast? ≠ some '/' := by
      rw [String.data_append, List.getLast?_append_of_ne_nil (root ++ "/").data hs.2]
      intro hcon
      exact hs.1 (mem_of_getLast?_eq s.data '/' hcon)
    have hstep : renderPath root (s :: rest) = renderPath (joinPath root s) rest := rfl
    rw [hstep, hj, ih (root ++ "/" ++ s) hnew1 hnew2 hrest, renderSegs]
    simp [String.append_assoc]

/-- The program's level computation at a walk-built path gives the true depth
under the benign provisos. -/
theorem level_renderPath_eq_depth (root : String) (segs : List String)
    (h1 : root.data ≠ []) (h2 : root.data.getLast? ≠ some '/')
    (hocc : occursIn root.data (renderSegs segs).data = false)
    (hsegs : ∀ s ∈ segs, ('/' : Char) ∉ s.data ∧ s.data ≠ []) :
    level root (renderPath root segs) = segs.length := by
  rw [renderPath_eq_append segs root h1 h2 hsegs]
  exact level_eq_depth root segs h1 hocc (fun s hs => (hsegs s hs).1)

mutual

/-- No visited directory's chain of basenames below the root contains a name
from the ignore set: ignored directories are pruned before descent, so none of
their descendants is ever visited. -/
theorem walkSegs_avoids (ignore : List String) (n : String) (hn : n ∈ ignore)
    (t : FTree) : ∀ fr ∈ walkSegs ignore t, n ∉ fr.1 := by
  cases t with
  | node nm ok files subdirs =>
    cases ok with
    | false => intro fr hfr; rw [walkSegs] at hfr; simp at hfr
    | true =>
      intro fr hfr
      rw [walkSegs] at hfr
      simp only [if_true] at hfr
      rcases List.mem_cons.mp hfr with h | h
      · subst h; simp
      · exact walkSegsChildren_avoids ignore n hn subdirs fr h

theorem walkSegsChildren_avoids (ignore : List String) (n : String) (hn : n ∈ ignore)
    (l : List FTree) : ∀ fr ∈ walkSegsChildren ignore l, n ∉ fr.1 := by
  cases l with
  | nil => intro fr hfr; simp [walkSegsChildren] at hfr
  | cons c rest =>
    intro fr hfr
    rw [walkSegsChildren] at hfr
    rcases List.mem_append.mp hfr with h | h
    · by_cases hc : c.name ∈ ignore
      · simp [hc] at h
      · simp only [hc, if_false] at h
        rcases List.mem_map.mp h with ⟨fr', hfr', rfl⟩
        intro hmem
        rcases List.mem_cons.mp hmem with h1 | h1
        · exact hc (h1 ▸ hn)
        · exact walkSegs_avoids ignore n hn c fr' hfr' h1
    · exact walkSegsChildren_avoids ignore n hn rest fr h

end

/-- Re-join split lines, putting one `'\n'` between consecutive lines. -/
def joinLinesNl : List (List Char) → List Char
  | [] => []
  | [x] => x
  | x :: xs => x ++ '\n' :: joinLinesNl xs

/-- A string's characters up to a single trailing terminator. -/
def dropTrailingNl (l : List Char) : List Char :=
  if l.getLast? = some '\n' then l.dropLast else l

theorem splitlinesL_ne_nil (l : List Char) (h : l ≠ []) : splitlinesL l ≠ [] := by
  cases l with
  | nil => exact absurd rfl h
  | cons c rest =>
    rw [splitlinesL]
    by_cases h1 : c = '\r'
    · simp [h1]
    · rw [if_neg h1]
      by_cases h2 : isLineBreak c = true
      · simp [h2]
      · rw [if_neg h2]
        cases splitlinesL rest with
        | nil => simp
        | cons x xs => simp

theorem joinLinesNl_cons_cons (c : Char) (l0 : List Char) (ls : List (List Char)) :
    joinLinesNl ((c :: l0) :: ls) = c :: joinLinesNl (l0 :: ls) := by
  cases ls with
  | nil => rfl
  | cons y ys => rfl

theorem dropTrailingNl_cons (c : Char) (rest : List Char) (h : rest ≠ []) :
    dropTrailingNl (c :: rest) = c :: dropTrailingNl rest := by
  rcases List.exists_cons_of_ne_nil h with ⟨r, rs, rfl⟩
  rw [dropTrailingNl, dropTrailingNl, List.getLast?_cons_cons, List.dropLast_cons₂]
  by_cases hl : (r :: rs).getLast? = some '\n'
  · simp [hl]
  · simp [hl]

/-- `splitlines` removes exactly the line terminators: when the content's only
line-boundary characters are `'\n'` (as for any text produced by universal-
newline reading without the rarer boundary characters), re-inserting one
`'\n'` between consecutive lines restores the input up to a single trailing
terminator (which `splitlines` discards without producing an empty line). -/
theorem joinLinesNl_splitlinesL (l : List Char)
    (hl : ∀ c ∈ l, isLineBreak c = true → c = '\n') :
    joinLinesNl (splitlinesL l) = dropTrailingNl l := by
  induction l with
  | nil => rfl
  | cons c rest ih =>
    have hc0 := hl c (List.mem_cons_self c rest)
    have ih' := ih (fun x hx hb => hl x (List.mem_cons_of_mem c hx) hb)
    by_cases hb : isLineBreak c = true
    · have hcn : c = '\n' := hc0 hb
      subst hcn
      rw [splitlinesL, if_neg (by decide), if_pos (by decide)]
      cases hrest : rest with
      | nil => decide
      | cons r rs =>
        rcases List.exists_cons_of_ne_nil (splitlinesL_ne_nil (r :: rs) (by simp))
          with ⟨x, xs, hx⟩
        rw [hx]
        show '\n' :: joinLinesNl (x :: xs) = _
        rw [hrest] at ih'
        rw [← hx, ih', dropTrailingNl_cons '\n' (r :: rs) (by simp)]
    · have hcr : ¬ c = '\r' := by
        intro h0
        rw [h0] at hb
        exact hb (by decide)
      have hcn : ¬ c = '\n' := by
        intro h0
        rw [h0] at hb
        exact hb (by decide)
      rw [splitlinesL, if_neg hcr, if_neg hb]
      cases hrest : rest with
      | nil =>
        show joinLinesNl [[c]] = dropTrailingNl [c]
        have h1 : joinLinesNl [[c]] = [c] := rfl
        rw [h1, dropTrailingNl]
        simp [hcn]
      | cons r rs =>
        rcases List.exists_cons_of_ne_nil (splitlinesL_ne_nil (r :: rs) (by simp))
          with ⟨x, xs, hx⟩
        rw [hx]
        show joinLinesNl ((c :: x) :: xs) = _
        rw [hrest] at ih'
        rw [joinLinesNl_cons_cons, ← hx, ih', dropTrailingNl_cons c (r :: rs) (by simp)]

mutual

/-- No produced line contains any line-boundary character: `splitlines` splits
at every boundary. -/
theorem splitlinesL_no_break : ∀ (l : List Char), ∀ ln ∈ splitlinesL l, ∀ c ∈ ln,
    isLineBreak c = false
  | [] => by
    intro ln h
    rw [splitlinesL] at h
    exact absurd h (List.not_mem_nil ln)
  | a :: rest => by
    intro ln hln c hc
    rw [splitlinesL] at hln
    by_cases h1 : a = '\r'
    · rw [if_pos h1] at hln
      rcases List.mem_cons.mp hln with h | h
      · subst h
        exact absurd hc (List.not_mem_nil c)
      · exact skipLF_no_break rest ln h c hc
    · rw [if_neg h1] at hln
      by_cases h2 : isLineBreak a = true
      · rw [if_pos h2] at hln
        rcases List.mem_cons.mp hln with h | h
        · subst h
          exact absurd hc (List.not_mem_nil c)
        · exact splitlinesL_no_break rest ln h c hc
      · rw [if_neg h2] at hln
        have h2' : isLineBreak a = false := by
          revert h2
          cases isLineBreak a with
          | false => intro _; rfl
          | true => intro h2; exact absurd rfl h2
        cases hx : splitlinesL rest with
        | nil =>
          rw [hx] at hln
          rcases List.mem_cons.mp hln with h | h
          · subst h
            rcases List.mem_cons.mp hc with h3 | h3
            · rw [h3]
              exact h2'
            · exact absurd h3 (List.not_mem_nil c)
          · exact absurd h (List.not_mem_nil ln)
        | cons x xs =>
          rw [hx] at hln
          rcases List.mem_cons.mp hln with h | h
          · subst h
            rcases List.mem_cons.mp hc with h3 | h3
            · rw [h3]
              exact h2'
            · exact splitlinesL_no_break rest x (by rw [hx]; exact List.mem_cons_self x xs) c h3
          · exact splitlinesL_no_break rest ln (by rw [hx]; exact List.mem_cons_of_mem x h) c hc

theorem skipLF_no_break : ∀ (l : List Char), ∀ ln ∈ skipLF l, ∀ c ∈ ln,
    isLineBreak c = false
  | [] => by
    intro ln h
    rw [skipLF] at h
    exact absurd h (List.not_mem_nil ln)
  | a :: rest => by
    intro ln hln c hc
    rw [skipLF] at hln
    by_cases h0 : a = '\n'
    · rw [if_pos h0] at hln
      exact splitlinesL_no_break rest ln hln c hc
    · rw [if_neg h0] at hln
      by_cases h1 : a = '\r'
      · rw [if_pos h1] at hln
        rcases List.mem_cons.mp hln with h | h
        · subst h
          exact absurd hc (List.not_mem_nil c)
        · exact skipLF_no_break rest ln h c hc
      · rw [if_neg h1] at hln
        by_cases h2 : isLineBreak a = true
        · rw [if_pos h2] at hln
          rcases List.mem_cons.mp hln with h | h
          · subst h
            exact absurd hc (List.not_mem_nil c)
          · exact splitlinesL_no_break rest ln h c hc
        · rw [if_neg h2] at hln
          have h2' : isLineBreak a = false := by
            revert h2
            cases isLineBreak a with
            | false => intro _; rfl
            | true => intro h2; exact absurd rfl h2
          cases hx : splitlinesL rest with
          | nil =>
            rw [hx] at hln
            rcases List.mem_cons.mp hln with h | h
            · subst h
              rcases List.mem_cons.mp hc with h3 | h3
              · rw [h3]
                exact h2'
              · exact absurd h3 (List.not_mem_nil c)
            · exact absurd h (List.not_mem_nil ln)
          | cons x xs =>
            rw [hx] at hln
            rcases List.mem_cons.mp hln with h | h
            · subst h
              rcases List.mem_cons.mp hc with h3 | h3
              · rw [h3]
                exact h2'
              · exact splitlinesL_no_break rest x (by rw [hx]; exact List.mem_cons_self x xs) c h3
            · exact splitlinesL_no_break rest ln (by rw [hx]; exact List.mem_cons_of_mem x h) c hc

end

/-- The pass-1 inline `if`-filtered loop over filenames produces exactly one
line per file kept by the pass-2 list-comprehension filter. -/
theorem pass1FileLines_eq_map (ignore : List String) (lvl : Nat) (files : List FileE) :
    pass1FileLines ignore lvl files =
      (keepFiles ignore files).map (fun f => indent (lvl + 1) ++ f.1) := by
  induction files with
  | nil => rfl
  | cons f rest ih =>
    rw [pass1FileLines, keepFiles, List.filter_cons]
    by_cases h : f.1 ∈ ignore
    · have hb : decide (f.1 ∉ ignore) = false := decide_eq_false (not_not_intro h)
      rw [if_pos h, hb, ih, keepFiles]
      simp
    · have hb : decide (f.1 ∉ ignore) = true := decide_eq_true h
      rw [if_neg h, hb, if_pos rfl, List.map_cons, ih, keepFiles]

/-! ### Claims -/

/-- An unlistable root: the directory named by `root_dir` does not exist, or its
listing raises. -/
def tC3 : FTree := .node "gone" false [] []

/-- C3 counterexample: the claim says a non-existent root directory is fatal and
propagates uncaught, but `os.walk`'s default `onerror=None` swallows the
listing error: with an unlistable root and a writable output the run completes
normally and produces the empty two-section report. -/
theorem C3_counterexample :
    write_tree_with_content "makki_directory_tree.txt" "/gone" ["node_modules"] tC3 true "" =
      .ok "Directory Tree Outline:\n\nDetailed File Content:\n" := by decide

/-- C3 (amended): only failing to open the output path is fatal and propagates;
errors while listing a directory — a missing root as well as a
permission-denied directory met during traversal — are silently swallowed by
`os.walk` (default `onerror=None`): the affected directory contributes nothing
and the run still completes, returning the full report. -/
theorem C3_amended (output_file root_dir : String) (ignore_list : List String)
    (t : FTree) (prev : String) :
    write_tree_with_content output_file root_dir ignore_list t false prev =
        .error "could not open output file" ∧
    write_tree_with_content output_file root_dir ignore_list t true prev =
        .ok (render (reportLines root_dir ignore_list t)) ∧
    ∀ nm files subdirs,
      walkPruned ignore_list root_dir (FTree.node nm false files subdirs) = [] := by
  refine ⟨rfl, rfl, fun nm files subdirs => ?_⟩
  rw [walkPruned]
  simp

/-- C7: the serializer is a pure function of the filesystem snapshot and its
arguments — two runs with the same root, output path, ignore set and unchanged
tree produce byte-identical output, whatever the output file held before. -/
theorem C7_deterministic (output_file root_dir : String) (ignore_list : List String)
    (t : FTree) (w : Bool) (prev1 prev2 : String) :
    write_tree_with_content output_file root_dir ignore_list t w prev1 =
      write_tree_with_content output_file root_dir ignore_list t w prev2 := rfl

/-- C8: the output is created fresh — the final content does not depend on the
output file's previous content — the report's first line is
`"Directory Tree Outline:"`, and the content section is introduced by a blank
line followed by the line `"Detailed File Content:"`. -/
theorem C8_fresh_with_headers (output_file root_dir : String) (ignore_list : List String)
    (t : FTree) (prevContent : String) :
    write_tree_with_content output_file root_dir ignore_list t true prevContent =
      .ok (render ("Directory Tree Outline:" ::
        (outlineLines root_dir ignore_list t ++
          "" :: "Detailed File Content:" :: contentLines root_dir ignore_list t))) ∧
    (reportLines root_dir ignore_list t).head? = some "Directory Tree Outline:" :=
  ⟨rfl, rfl⟩

/-- C9: the only file ever opened for writing is the output file; every other
file touched during the run is opened for reading. -/
theorem C9_only_output_written (output_file root_dir : String) (ignore_list : List String)
    (t : FTree) :
    ∀ e ∈ runEffects output_file root_dir ignore_list t,
      (e = .openWrite output_file ∨ ∃ p, e = .openRead p) ∧
      ∀ q, e = .openWrite q → q = output_file := by
  intro e he
  rw [runEffects] at he
  rcases List.mem_cons.mp he with h | h
  · subst h
    refine ⟨Or.inl rfl, fun q hq => ?_⟩
    injection hq with h'
    exact h'.symm
  · rcases List.mem_flatMap.mp h with ⟨fr, _, hm⟩
    rcases List.mem_map.mp hm with ⟨f, _, rfl⟩
    exact ⟨Or.inr ⟨_, rfl⟩, fun q hq => FsOp.noConfusion hq⟩

/-- Witness tree for C9. -/
def tC9 : FTree := .node "r" true [("a.txt", .ok "hi")] []

theorem C9_only_output_written_witness :
    FsOp.openRead "/r/a.txt" ∈ runEffects "out.txt" "/r" [] tC9 ∧
    ((FsOp.openRead "/r/a.txt" = .openWrite "out.txt" ∨
        ∃ p, FsOp.openRead "/r/a.txt" = .openRead p) ∧
      ∀ q, FsOp.openRead "/r/a.txt" = .openWrite q → q = "out.txt") :=
  ⟨by decide,
    C9_only_output_written "out.txt" "/r" [] tC9 (FsOp.openRead "/r/a.txt") (by decide)⟩

/-- C10: with a root whose top-level listing fails (or that does not exist),
the run still completes and the report is exactly the header line, a blank
line, and the content header, with no entries. -/
theorem C10_empty_report (output_file root_dir nm : String) (ignore_list : List String)
    (files : List FileE) (subdirs : List FTree) (prevContent : String) :
    write_tree_with_content output_file root_dir ignore_list
        (.node nm false files subdirs) true prevContent =
      .ok "Directory Tree Outline:\n\nDetailed File Content:\n" := by
  have h : walkPruned ignore_list root_dir (FTree.node nm false files subdirs) = [] := by
    rw [walkPruned]
    simp
  rw [write_tree_with_content, if_pos rfl, reportLines, outlineLines, contentLines, h]
  rfl

/-- If `f` always produces `g x` as its first element, mapping `g` gives a
sublist of flat-mapping `f`. -/
theorem map_sublist_flatMap {α β : Type} (g : α → β) (f : α → List β)
    (h : ∀ x, ∃ r, f x = g x :: r) (l : List α) :
    (l.map g).Sublist (l.flatMap f) := by
  induction l with
  | nil => simp
  | cons a as ih =>
    rcases h a with ⟨r, hr⟩
    rw [List.map_cons, List.flatMap_cons, hr]
    exact List.Sublist.cons₂ (g a) (ih.trans (List.sublist_append_right r (as.flatMap f)))

/-- A root directory whose own basename is in the ignore set, with a child
file. -/
def tC1cex : FTree := .node "r" true [("x.txt", .ok "")] []

/-- C1 counterexample: `os.walk` always yields the root itself, and the pruning
of lines 9 and 23 applies only to subdirectory names — so a root whose basename
is in the ignore set still appears in both sections, and its children are still
listed. -/
theorem C1_counterexample :
    "r" ∈ (["r"] : List String) ∧ basename "/r" = "r" ∧
    "r/" ∈ outlineLines "/r" ["r"] tC1cex ∧
    "r/" ∈ contentLines "/r" ["r"] tC1cex ∧
    "    x.txt" ∈ outlineLines "/r" ["r"] tC1cex := by decide

/-- C1 (amended): every *non-root* directory whose basename is in the ignore
set, and every file whose basename is in the ignore set, is absent from both
sections, and no descendant of an ignored directory is ever visited: no visited
directory's chain of basenames below the root contains an ignored name, and
every file line comes from `keepFiles`.  (The root directory itself is emitted
unconditionally, whatever its basename.) -/
theorem C1_ignored_pruned (ignore : List String) (t : FTree) (n : String)
    (hn : n ∈ ignore) :
    (∀ dirpath, walkPruned ignore dirpath t =
        (walkSegs ignore t).map (fun fr => (renderPath dirpath fr.1, fr.2))) ∧
    (∀ fr ∈ walkSegs ignore t, n ∉ fr.1) ∧
    (∀ fr ∈ walkSegs ignore t, ∀ f ∈ keepFiles ignore fr.2, f.1 ≠ n) := by
  refine ⟨fun dirpath => walkPruned_eq_segs ignore dirpath t,
    walkSegs_avoids ignore n hn t, ?_⟩
  intro fr _ f hf hfn
  have hmem : f.1 ∉ ignore := of_decide_eq_true (List.mem_filter.mp hf).2
  exact hmem (hfn ▸ hn)

/-- Witness tree for C1: an ignored subdirectory with a non-ignored
grandchild, an ignored file, and a surviving sibling. -/
def tC1 : FTree :=
  .node "r" true [("a.txt", .ok "hi"), ("node_modules", .ok "z")]
    [.node "node_modules" true [] [.node "inner" true [] []],
     .node "sub" true [("b.txt", .error "boom")] []]

theorem C1_ignored_pruned_witness :
    "node_modules" ∈ (["node_modules"] : List String) ∧
    ((∀ dirpath, walkPruned ["node_modules"] dirpath tC1 =
        (walkSegs ["node_modules"] tC1).map (fun fr => (renderPath dirpath fr.1, fr.2))) ∧
     (∀ fr ∈ walkSegs ["node_modules"] tC1, "node_modules" ∉ fr.1) ∧
     (∀ fr ∈ walkSegs ["node_modules"] tC1,
        ∀ f ∈ keepFiles ["node_modules"] fr.2, f.1 ≠ "node_modules")) :=
  ⟨by decide, C1_ignored_pruned ["node_modules"] tC1 "node_modules" (by decide)⟩

/-- C6: the outline pass and the content pass agree on membership: for every
visited frame, pass 1 emits the directory header and exactly one line per file
kept by `keepFiles` — the same filter pass 2 applies — and pass 2 emits the
same header and contains the same file-name lines, in the same order.  Both
sections iterate the same pruned walk, so directory membership is identical by
construction. -/
theorem C6_passes_agree (root : String) (ignore : List String) (t : FTree) :
    (∀ fr ∈ walkPruned ignore root t,
      pass1Frame root ignore fr =
        (indent (level root fr.1) ++ basename fr.1 ++ "/") ::
          (keepFiles ignore fr.2).map (fun f => indent (level root fr.1 + 1) ++ f.1)) ∧
    (∀ fr ∈ walkPruned ignore root t,
      (pass2Frame root ignore fr).head? = (pass1Frame root ignore fr).head? ∧
        ((keepFiles ignore fr.2).map (fun f => indent (level root fr.1 + 1) ++ f.1)).Sublist
          (pass2Frame root ignore fr)) := by
  constructor
  · intro fr _
    rw [pass1Frame, pass1FileLines_eq_map]
  · intro fr _
    refine ⟨rfl, ?_⟩
    rw [pass2Frame]
    refine List.Sublist.trans ?_ (List.sublist_cons_self _ _)
    exact map_sublist_flatMap _ _ (fun x => ⟨_, rfl⟩) (keepFiles ignore fr.2)

/-- Witness tree for C6: one kept file, one ignored file. -/
def tC6 : FTree := .node "r" true [("a.txt", .ok "x"), ("junk", .error "e")] []

theorem C6_passes_agree_witness :
    (pass1Frame "/r" ["junk"] ("/r", [("a.txt", .ok "x"), ("junk", .error "e")]) =
      (indent 0 ++ basename "/r" ++ "/") ::
        (keepFiles ["junk"] [("a.txt", .ok "x"), ("junk", .error "e")]).map
          (fun f => indent 1 ++ f.1)) ∧
    ((pass2Frame "/r" ["junk"] ("/r", [("a.txt", .ok "x"), ("junk", .error "e")])).head? =
        (pass1Frame "/r" ["junk"] ("/r", [("a.txt", .ok "x"), ("junk", .error "e")])).head? ∧
      ((keepFiles ["junk"] [("a.txt", .ok "x"), ("junk", .error "e")]).map
          (fun f => indent 1 ++ f.1)).Sublist
        (pass2Frame "/r" ["junk"] ("/r", [("a.txt", .ok "x"), ("junk", .error "e")]))) :=
  ⟨(C6_passes_agree "/r" ["junk"] tC6).1 ("/r", [("a.txt", .ok "x"), ("junk", .error "e")])
      (by decide),
    (C6_passes_agree "/r" ["junk"] tC6).2 ("/r", [("a.txt", .ok "x"), ("junk", .error "e")])
      (by decide)⟩

/-- A tree whose subdirectory repeats the root path's trailing component:
root `/a` contains a subdirectory `a`, so the walk visits `/a/a`. -/
def tC5cex : FTree := .node "a" true [] [.node "a" true [] []]

/-- C5 counterexample: the claim computes depth as the number of segments
between the root and the directory, but line 10 uses
`dirpath.replace(root_dir, '')`, which removes *every* occurrence of the root
string: for root `/a` and directory `/a/a` (depth 1) both occurrences of `/a`
are removed, the computed level is 0, and the header is written as `"a/"`
instead of `"    a/"`. -/
theorem C5_counterexample :
    outlineLines "/a" [] tC5cex = ["a/", "a/"] ∧
    "    a/" ∉ outlineLines "/a" [] tC5cex ∧
    level "/a" (renderPath "/a" ["a"]) = 0 := by decide

/-- C5 (amended): the header indent is `4 * level` and each file line
`4 * (level + 1)`, where level is the separator count of the directory path
after deleting every occurrence of the root string; whenever the root path is
nonempty, neither ends with a separator nor reoccurs inside the relative path,
and the visited chain's basenames are nonempty and separator-free, this level
equals the claim's depth — the number of segments between the root and the
directory — at the very path the walk builds by iterated `os.path.join`. -/
theorem C5_header_indent (root : String) (ignore : List String) (t : FTree)
    (fr : List String × List FileE) (h1 : fr ∈ walkSegs ignore t)
    (h2 : root.data ≠ []) (h2b : root.data.getLast? ≠ some '/')
    (h3 : occursIn root.data (renderSegs fr.1).data = false)
    (h4 : ∀ s ∈ fr.1, ('/' : Char) ∉ s.data ∧ s.data ≠ []) :
    level root (renderPath root fr.1) = fr.1.length ∧
    pass1Frame root ignore (renderPath root fr.1, fr.2) =
      (indent fr.1.length ++ basename (renderPath root fr.1) ++ "/") ::
        (keepFiles ignore fr.2).map (fun f => indent (fr.1.length + 1) ++ f.1) := by
  have hl := level_renderPath_eq_depth root fr.1 h2 h2b h3 h4
  refine ⟨hl, ?_⟩
  simp only [pass1Frame]
  rw [pass1FileLines_eq_map, hl]

/-- Witness tree for C5. -/
def tC5 : FTree := .node "r" true [] [.node "sub" true [("f.txt", .ok "z")] []]

theorem C5_header_indent_witness :
    (["sub"], [(("f.txt" : String), Except.ok ("z" : String))]) ∈ walkSegs [] tC5 ∧
    (level "/r" (renderPath "/r" ["sub"]) = 1 ∧
      pass1Frame "/r" [] (renderPath "/r" ["sub"], [("f.txt", Except.ok "z")]) =
        (indent 1 ++ basename (renderPath "/r" ["sub"]) ++ "/") ::
          (keepFiles [] [("f.txt", Except.ok "z")]).map (fun f => indent 2 ++ f.1)) :=
  ⟨by decide,
    C5_header_indent "/r" [] tC5 (["sub"], [("f.txt", Except.ok "z")])
      (by decide) (by decide) (by decide) (by decide) (by decide)⟩

/-- Root `/a` with subdirectory `a` holding a readable one-line file. -/
def tC2cex : FTree := .node "a" true [] [.node "a" true [("f", .ok "x")] []]

/-- C2 counterexample: the file `f` in directory `/a/a` sits at depth 1, so the
claim requires its content line to carry `4 * (1 + 2) = 12` spaces of indent;
because `replace` strips both occurrences of `/a`, the computed level is 0 and
the line is written with 8 spaces. -/
theorem C2_counterexample :
    contentLines "/a" [] tC2cex = ["a/", "a/", "    f", "        x"] ∧
    "            x" ∉ contentLines "/a" [] tC2cex := by decide

/-- C2 (amended): for every non-ignored readable file, the emitted block is the
name line followed by exactly the lines Python's `splitlines` produces from the
file's text, in order, with the boundary characters removed — the split is at
every `str.splitlines` boundary (LF, CR, CRLF, VT, FF, FS, GS, RS, NEL, LS,
PS), not only at newlines, and no emitted line contains any boundary
character; when the text's only boundary characters are `'\n'`, re-joining the
lines with `'\n'` restores the content up to one trailing terminator.  Each
content line is prefixed with `4 * (depth + 2)` spaces, where depth is the
number of segments between root and directory, *provided* the root path is
nonempty, neither ends with a separator nor reoccurs inside the relative path,
and the chain's basenames are nonempty and separator-free (in general the
indent uses the computed level). -/
theorem C2_content_exact (root : String) (ignore : List String) (t : FTree)
    (fr : List String × List FileE) (name content : String)
    (h0 : fr ∈ walkSegs ignore t)
    (h1 : (name, Except.ok content) ∈ keepFiles ignore fr.2)
    (h2 : root.data ≠ []) (h2b : root.data.getLast? ≠ some '/')
    (h3 : occursIn root.data (renderSegs fr.1).data = false)
    (h4 : ∀ s ∈ fr.1, ('/' : Char) ∉ s.data ∧ s.data ≠ [])
    (h5 : ∀ c ∈ content.data, isLineBreak c = true → c = '\n') :
    fileLines (level root (renderPath root fr.1)) (name, Except.ok content) =
      (indent (fr.1.length + 1) ++ name) ::
        (pySplitlines content).map (fun line => indent (fr.1.length + 2) ++ line) ∧
    joinLinesNl (splitlinesL content.data) = dropTrailingNl content.data ∧
    (∀ ln ∈ splitlinesL content.data, ∀ c ∈ ln, isLineBreak c = false) := by
  have hl := level_renderPath_eq_depth root fr.1 h2 h2b h3 h4
  refine ⟨?_, joinLinesNl_splitlinesL content.data h5, splitlinesL_no_break content.data⟩
  rw [hl]
  rfl

/-- Witness tree for C2. -/
def tC2 : FTree := .node "r" true [("a.txt", .ok "hello\nworld\n")] []

theorem C2_content_exact_witness :
    (([] : List String), [(("a.txt" : String), Except.ok ("hello\nworld\n" : String))]) ∈
        walkSegs [] tC2 ∧
    ("a.txt", Except.ok "hello\nworld\n") ∈
        keepFiles [] [("a.txt", Except.ok "hello\nworld\n")] ∧
    (fileLines (level "/r" (renderPath "/r" [])) ("a.txt", Except.ok "hello\nworld\n") =
        (indent 1 ++ "a.txt") ::
          (pySplitlines "hello\nworld\n").map (fun line => indent 2 ++ line) ∧
      joinLinesNl (splitlinesL ("hello\nworld\n" : String).data) =
        dropTrailingNl ("hello\nworld\n" : String).data ∧
      (∀ ln ∈ splitlinesL ("hello\nworld\n" : String).data, ∀ c ∈ ln,
        isLineBreak c = false)) :=
  ⟨by decide, by decide,
    C2_content_exact "/r" [] tC2 ([], [("a.txt", Except.ok "hello\nworld\n")])
      "a.txt" "hello\nworld\n" (by decide) (by decide) (by decide) (by decide) (by decide)
      (by decide) (by decide)⟩

/-- Root `/a` with subdirectory `a` holding an unreadable file. -/
def tC4cex : FTree := .node "a" true [] [.node "a" true [("g", .error "boom")] []]

/-- C4 counterexample: the unreadable file `g` sits in a directory at depth 1,
so the claim requires the fallback line to carry `4 * (1 + 1) + 2 = 10` spaces
of indent; the computed level for `/a/a` is 0 (the root string `/a` is removed
twice), so it is written with 6. -/
theorem C4_counterexample :
    contentLines "/a" [] tC4cex =
      ["a/", "a/", "    g", "      (Could not read file: boom)"] ∧
    "          (Could not read file: boom)" ∉ contentLines "/a" [] tC4cex := by decide

/-- C4 (amended): for every non-ignored unreadable file, exactly one fallback
line is emitted in place of content — the file-name indent plus two spaces,
then `"(Could not read file: "`, the failure description, and `")"` — and the
frame's remaining files are processed unaffected; the indent is
`4 * (depth + 1) + 2` with depth the true segment count provided the root path
is nonempty, neither ends with a separator nor reoccurs in the relative path,
and basenames are nonempty and separator-free (in general it uses the computed
level). -/
theorem C4_unreadable_fallback (root : String) (ignore : List String) (t : FTree)
    (fr : List String × List FileE) (name e : String) (a b : List FileE)
    (h0 : fr ∈ walkSegs ignore t)
    (hsplit : keepFiles ignore fr.2 = a ++ (name, Except.error e) :: b)
    (h2 : root.data ≠ []) (h2b : root.data.getLast? ≠ some '/')
    (h3 : occursIn root.data (renderSegs fr.1).data = false)
    (h4 : ∀ s ∈ fr.1, ('/' : Char) ∉ s.data ∧ s.data ≠ []) :
    fileLines (level root (renderPath root fr.1)) (name, Except.error e) =
      [indent (fr.1.length + 1) ++ name,
        indent (fr.1.length + 1) ++ "  (Could not read file: " ++ e ++ ")"] ∧
    pass2Frame root ignore (renderPath root fr.1, fr.2) =
      (indent fr.1.length ++ basename (renderPath root fr.1) ++ "/") ::
        (a.flatMap (fileLines fr.1.length) ++
          ((indent (fr.1.length + 1) ++ name) ::
            (indent (fr.1.length + 1) ++ "  (Could not read file: " ++ e ++ ")") ::
              b.flatMap (fileLines fr.1.length))) := by
  have hl := level_renderPath_eq_depth root fr.1 h2 h2b h3 h4
  constructor
  · rw [hl]
    rfl
  · simp only [pass2Frame]
    rw [hl, hsplit, List.flatMap_append, List.flatMap_cons]
    rfl

/-- Witness tree for C4: a readable file, then an unreadable one, an ignored
one, and a trailing readable sibling that must still be processed. -/
def tC4 : FTree :=
  .node "r" true
    [("ok.txt", .ok "fine"), ("bad.bin", .error "decode error"),
      ("skip", .ok "s"), ("tail.txt", .ok "t")] []

theorem C4_unreadable_fallback_witness :
    (([] : List String),
        [(("ok.txt" : String), Except.ok ("fine" : String)),
          ("bad.bin", Except.error "decode error"),
          ("skip", Except.ok "s"), ("tail.txt", Except.ok "t")]) ∈
      walkSegs ["skip"] tC4 ∧
    keepFiles ["skip"]
        [("ok.txt", Except.ok "fine"), ("bad.bin", Except.error "decode error"),
          ("skip", Except.ok "s"), ("tail.txt", Except.ok "t")] =
      [("ok.txt", Except.ok "fine")] ++
        ("bad.bin", Except.error "decode error") :: [("tail.txt", Except.ok "t")] ∧
    (fileLines (level "/r" (renderPath "/r" [])) ("bad.bin", Except.error "decode error") =
        [indent 1 ++ "bad.bin",
          indent 1 ++ "  (Could not read file: " ++ "decode error" ++ ")"] ∧
      pass2Frame "/r" ["skip"] (renderPath "/r" [],
          [("ok.txt", Except.ok "fine"), ("bad.bin", Except.error "decode error"),
            ("skip", Except.ok "s"), ("tail.txt", Except.ok "t")]) =
        (indent 0 ++ basename (renderPath "/r" []) ++ "/") ::
          ([("ok.txt", Except.ok "fine")].flatMap (fileLines 0) ++
            ((indent 1 ++ "bad.bin") ::
              (indent 1 ++ "  (Could not read file: " ++ "decode error" ++ ")") ::
                [(("tail.txt" : String), Except.ok ("t" : String))].flatMap (fileLines 0)))) :=
  ⟨by decide, by decide,
    C4_unreadable_fallback "/r" ["skip"] tC4
      ([], [("ok.txt", Except.ok "fine"), ("bad.bin", Except.error "decode error"),
        ("skip", Except.ok "s"), ("tail.txt", Except.ok "t")])
      "bad.bin" "decode error"
      [("ok.txt", Except.ok "fine")] [("tail.txt", Except.ok "t")]
      (by decide) (by decide) (by decide) (by decide) (by decide) (by decide)⟩

end Makki
